import Mathlib

/-!
Verification of the MCTS engine of the AlphaGomoku repository.

The Python sources are shallowly embedded:
* `Node` (src/agent/mcts_node.py) becomes the nested inductive `Node`
  below: the `parent` back-reference is kept as a Boolean flag (whether
  the reference is set), the `children` dict becomes an insertion-ordered
  association list from integer actions to child nodes, and the
  statistics `visit_num` / `w_value` / `q_value` / `prob` are kept with
  `w_value`, `q_value`, `prob` as rationals (Python floats carrying exact
  rational values in all the code paths under study).
* `Node.update`, which climbs the chain of `parent` references, is
  embedded twice: once on the explicit chain of ancestor statistics
  (`updateChain`, the direct transcription of the recursion) and once as
  a path-indexed update on whole trees (`backprop`) used for the
  reachable-state invariant.
* floating point enters only through `Node.get_ucb`, where
  `np.log` / `np.sqrt` meet the argument 0; the special values are
  modelled by `FVal` (finite real, two infinities, NaN) with the IEEE
  rules numpy follows.
* the environment used by `Node.play_out` is abstract: a step function
  on an opaque environment type returning the state dict, and an
  explicit choice function standing for `np.random.choice`.
* `MCTSMetaPlayer` (src/agent/mcts_agent.py) contributes its
  constructor, the re-rooting `_update_current_node` and the top-level
  sorted selection of `select_action`.
* `Gomoku.step` (src/env/gomoku.py) is embedded whole, including the
  four scanning loops of `_is_terminal`, with the board as a function
  from integer coordinates.
-/

namespace AlphaGomoku

/-- A tree node of the Monte Carlo search tree (class `Node` of
src/agent/mcts_node.py).  `parent` records whether the Python `parent`
reference is set (`Node(self)` sets it, `Node(None)` and re-rooting clear
it); `children` is the insertion-ordered dict of child nodes keyed by
integer actions. -/
inductive Node : Type where
  | mk (parent : Bool) (visit_num : ℕ) (w_value : ℚ) (q_value : ℚ)
      (prob : ℚ) (children : List (ℤ × Node)) : Node
deriving Repr

namespace Node

/-- The `parent` flag of a node. -/
def parent : Node → Bool
  | .mk p _ _ _ _ _ => p

/-- `N(s,a)`, the visit count of a node. -/
def visit_num : Node → ℕ
  | .mk _ v _ _ _ _ => v

/-- `W(s,a)`, the total action-value of a node. -/
def w_value : Node → ℚ
  | .mk _ _ w _ _ _ => w

/-- `Q(s,a)`, the cached mean action-value of a node. -/
def q_value : Node → ℚ
  | .mk _ _ _ q _ _ => q

/-- `P(s,a)`, the prior probability field (unused by pure MCTS). -/
def prob : Node → ℚ
  | .mk _ _ _ _ p _ => p

/-- The children dict of a node, as an insertion-ordered association
list. -/
def children : Node → List (ℤ × Node)
  | .mk _ _ _ _ _ c => c

/-- `Node.__init__`: a fresh node with zero statistics, prior 1 and no
children; the flag says whether a parent reference was passed. -/
def new (parentFlag : Bool) : Node :=
  .mk parentFlag 0 0 0 1 []

/-- Replace the children list of a node, keeping every other field. -/
def withChildren : Node → List (ℤ × Node) → Node
  | .mk p v w q pr _, c => .mk p v w q pr c

/-- Clear the `parent` reference of a node (the `self.root.parent = None`
assignment of `_update_current_node`), keeping every other field. -/
def clearParent : Node → Node
  | .mk _ v w q pr c => .mk false v w q pr c

end Node

/-- Lookup in a Python dict modelled as an association list: the value
bound to `k`, if any. -/
def lookupKey (k : ℤ) : List (ℤ × Node) → Option Node
  | [] => none
  | (k', v) :: rest => if k' = k then some v else lookupKey k rest

/-- Assignment `d[k] = v` on a Python dict modelled as an association
list: an existing binding is overwritten in place, a new key is appended
at the end (Python dicts preserve insertion order). -/
def dictInsert (k : ℤ) (v : Node) : List (ℤ × Node) → List (ℤ × Node)
  | [] => [(k, v)]
  | (k', v') :: rest =>
      if k' = k then (k', v) :: rest else (k', v') :: dictInsert k v rest

/-- A Python runtime value passed as the `action` argument of
`Node.expand`: a builtin `int`, a numpy integer, a builtin `list`, or a
numpy integer array. -/
inductive PyObj : Type where
  | pyInt (n : ℤ)
  | npInt (n : ℤ)
  | pyList (l : List ℤ)
  | npArray (l : List ℤ)
deriving DecidableEq, Repr

/-- The Python exceptions the embedded operations can raise. -/
inductive PyError : Type where
  | typeError
  | valueError
deriving DecidableEq, Repr

/-- `Node.expand(action, is_full_expand)` of src/agent/mcts_node.py.
Full expansion raises `TypeError` when handed a builtin `list`, and also
when handed a non-iterable integer; otherwise it inserts one fresh child
per array element.  Dynamic expansion (the default) raises `TypeError`
when handed a builtin `int`; a builtin `list` or numpy array is not
hashable, which also raises `TypeError` at the dict assignment.  A fresh
child carries a set parent reference (`Node(self)`). -/
def Node.expand (t : Node) (action : PyObj) (is_full_expand : Bool := false) :
    Except PyError Node :=
  if is_full_expand then
    match action with
    | .pyList _ => .error .typeError
    | .pyInt _ => .error .typeError
    | .npInt _ => .error .typeError
    | .npArray l =>
        .ok (l.foldl (fun t' a => t'.withChildren (dictInsert a (Node.new true) t'.children)) t)
  else
    match action with
    | .pyInt _ => .error .typeError
    | .pyList _ => .error .typeError
    | .npArray _ => .error .typeError
    | .npInt n => .ok (t.withChildren (dictInsert n (Node.new true) t.children))

/-- The statistics triple of one node, as touched by `Node.update`. -/
structure Stats : Type where
  visit_num : ℕ
  w_value : ℚ
  q_value : ℚ
deriving DecidableEq, Repr

/-- The three assignment lines of `Node.update` on one node:
`visit_num += 1`, `w_value += reward`, `q_value = w_value / visit_num`. -/
def statUpd (s : Stats) (reward : ℚ) : Stats :=
  { visit_num := s.visit_num + 1
    w_value := s.w_value + reward
    q_value := (s.w_value + reward) / (s.visit_num + 1) }

/-- `Node.update(reward)` transcribed on the explicit chain of ancestor
statistics: the head is the node the call starts at, the tail its chain
of parents up to the root (`parent is None` is the empty tail).  Each
level is updated and the negated reward is passed to the parent. -/
def updateChain : List Stats → ℚ → List Stats
  | [], _ => []
  | s :: parents, reward => statUpd s reward :: updateChain parents (-reward)

/-- A double-precision value as numpy produces it in `Node.get_ucb`: a
finite value (carried exactly as a real), one of the two infinities, or
NaN. -/
inductive FVal : Type where
  | fin (x : ℝ)
  | pinf
  | ninf
  | nan

/-- IEEE addition on `FVal`. -/
noncomputable def addF : FVal → FVal → FVal
  | .nan, _ => .nan
  | _, .nan => .nan
  | .fin x, .fin y => .fin (x + y)
  | .fin _, .pinf => .pinf
  | .fin _, .ninf => .ninf
  | .pinf, .fin _ => .pinf
  | .ninf, .fin _ => .ninf
  | .pinf, .pinf => .pinf
  | .ninf, .ninf => .ninf
  | .pinf, .ninf => .nan
  | .ninf, .pinf => .nan

/-- IEEE multiplication on `FVal`; an infinity times zero is NaN. -/
noncomputable def mulF : FVal → FVal → FVal
  | .nan, _ => .nan
  | _, .nan => .nan
  | .fin x, .fin y => .fin (x * y)
  | .fin x, .pinf => if 0 < x then .pinf else if x < 0 then .ninf else .nan
  | .pinf, .fin x => if 0 < x then .pinf else if x < 0 then .ninf else .nan
  | .fin x, .ninf => if 0 < x then .ninf else if x < 0 then .pinf else .nan
  | .ninf, .fin x => if 0 < x then .ninf else if x < 0 then .pinf else .nan
  | .pinf, .pinf => .pinf
  | .ninf, .ninf => .pinf
  | .pinf, .ninf => .ninf
  | .ninf, .pinf => .ninf

/-- IEEE division on `FVal`; division by zero yields a signed infinity
(NaN for zero over zero), an infinity over an infinity is NaN. -/
noncomputable def divF : FVal → FVal → FVal
  | .nan, _ => .nan
  | _, .nan => .nan
  | .fin x, .fin y =>
      if y = 0 then (if x = 0 then .nan else if 0 < x then .pinf else .ninf)
      else .fin (x / y)
  | .pinf, .fin y => if y < 0 then .ninf else .pinf
  | .ninf, .fin y => if y < 0 then .pinf else .ninf
  | .fin _, .pinf => .fin 0
  | .fin _, .ninf => .fin 0
  | .pinf, .pinf => .nan
  | .pinf, .ninf => .nan
  | .ninf, .pinf => .nan
  | .ninf, .ninf => .nan

/-- `np.sqrt` on `FVal`: NaN on negative arguments and on negative
infinity. -/
noncomputable def sqrtF : FVal → FVal
  | .nan => .nan
  | .pinf => .pinf
  | .ninf => .nan
  | .fin x => if x < 0 then .nan else .fin (Real.sqrt x)

/-- `np.log` applied to a non-negative Python integer: negative infinity
at 0 (numpy emits a runtime warning and yields `-inf`), the real
logarithm elsewhere. -/
noncomputable def npLog (n : ℕ) : FVal :=
  if n = 0 then .ninf else .fin (Real.log n)

/-- `Node.get_ucb(c)` of src/agent/mcts_node.py, with the fields it
reads made explicit: `q_value` of the node, `visit_num` of the node and
`visit_num` of its parent.  The score is
`q_value / (visit_num + 1) + c * np.sqrt(2 * np.log(parent.visit_num) / (visit_num + 1))`,
evaluated with numpy's special values. -/
noncomputable def Node.get_ucb (q_value : ℝ) (visit_num : ℕ)
    (parent_visit_num : ℕ) (c : ℝ) : FVal :=
  let exploitation_score := divF (.fin q_value) (.fin (visit_num + 1))
  let exploration_score :=
    sqrtF (divF (mulF (.fin 2) (npLog parent_visit_num)) (.fin (visit_num + 1)))
  addF exploitation_score (mulF (.fin c) exploration_score)

/-- The exploration factor of `Node.get_ucb` on its own:
`np.sqrt(2 * np.log(parent.visit_num) / (visit_num + 1))`. -/
noncomputable def explorationScore (parent_visit_num : ℕ) (visit_num : ℕ) : FVal :=
  sqrtF (divF (mulF (.fin 2) (npLog parent_visit_num)) (.fin (visit_num + 1)))

/-- The state dict exchanged with the game environment, restricted to
the keys `Node.play_out` consults: `"terminal"`, `"action"` and
`"reward"` (the `"state"` and `"last_move"` entries are never read by
the playout loop). -/
structure PState : Type where
  terminal : Bool
  action : List ℤ
  reward : ℤ
deriving DecidableEq, Repr

/-- The `for _ in range(limit)` loop of `Node.play_out`: starting from
`count` applied steps plus one, it breaks on a terminal state or an
empty action list, and otherwise applies `env.step` on the action the
random choice function picks, incrementing `count`.  Returns the final
`count` together with the final state.  The environment is an opaque
value of type `E` threaded through its step function. -/
def playOutAux {E : Type} (envStep : E → ℤ → E × PState)
    (choose : List ℤ → ℤ) : ℕ → E → PState → ℕ → ℕ × PState
  | 0, _, state, count => (count, state)
  | n + 1, e, state, count =>
      if state.terminal then (count, state)
      else if state.action = [] then (count, state)
      else
        let action := choose state.action
        let p := envStep e action
        playOutAux envStep choose n p.1 p.2 (count + 1)

/-- `Node.play_out(state, env, limit)` of src/agent/mcts_node.py: run
the playout loop with `count` starting at 1 and return
`((-1) ** (count + 1)) * state["reward"]` for the final count and
state. -/
def Node.play_out {E : Type} (envStep : E → ℤ → E × PState)
    (choose : List ℤ → ℤ) (e : E) (state : PState) (limit : ℕ := 1000) : ℤ :=
  let r := playOutAux envStep choose limit e state 1
  (-1 : ℤ) ^ (r.1 + 1) * r.2.reward

/-- The playout loop instrumented from zero: its first component is the
number of actions actually applied to the environment, its second the
state the loop stops in. -/
def rolloutRun {E : Type} (envStep : E → ℤ → E × PState)
    (choose : List ℤ → ℤ) (limit : ℕ) (e : E) (state : PState) : ℕ × PState :=
  playOutAux envStep choose limit e state 0

/-- Number of actions a playout applies before stopping. -/
def rolloutMovesPlayed {E : Type} (envStep : E → ℤ → E × PState)
    (choose : List ℤ → ℤ) (limit : ℕ) (e : E) (state : PState) : ℕ :=
  (rolloutRun envStep choose limit e state).1

/-- The state a playout stops in (whose `"reward"` entry the return
value reads). -/
def rolloutFinalState {E : Type} (envStep : E → ℤ → E × PState)
    (choose : List ℤ → ℤ) (limit : ℕ) (e : E) (state : PState) : PState :=
  (rolloutRun envStep choose limit e state).2

/-- `Node.update(reward)` seen from the root: the node the Python call
starts at is addressed by the path of actions from the root, the sign a
node on the path receives is fixed by its distance to that node (the
target gets `reward`, a node `k` levels above gets `(-1) ^ k * reward`),
and the three assignment lines of `update` are applied at every node on
the path. -/
def backprop (reward : ℚ) : List ℤ → Node → Node
  | [], .mk pa v w q pr c =>
      .mk pa (v + 1) (w + reward) ((w + reward) / ((v : ℚ) + 1)) pr c
  | a :: tl, .mk pa v w q pr c =>
      let s := (-1 : ℚ) ^ (tl.length + 1) * reward
      .mk pa (v + 1) (w + s) ((w + s) / ((v : ℚ) + 1)) pr
        (c.map fun kc => if kc.1 = a then (kc.1, backprop reward tl kc.2) else kc)
termination_by p => p.length

/-- Apply a function to the node addressed by a path of actions from the
root; a path that leaves the tree changes nothing. -/
def modifyAt (f : Node → Node) : List ℤ → Node → Node
  | [], t => f t
  | a :: tl, .mk pa v w q pr c =>
      .mk pa v w q pr
        (c.map fun kc => if kc.1 = a then (kc.1, modifyAt f tl kc.2) else kc)
termination_by p => p.length

/-- A tree-mutating operation of the search: a dynamic expansion at the
node addressed by `path`, or a backpropagation started at the node
addressed by `path`. -/
inductive TreeOp : Type where
  | expandAt (path : List ℤ) (action : ℤ)
  | backpropAt (path : List ℤ) (reward : ℚ)

/-- Run one tree operation on a tree. -/
def applyOp : TreeOp → Node → Node
  | .expandAt path a, t =>
      modifyAt
        (fun n =>
          match n.expand (.npInt a) with
          | .ok n' => n'
          | .error _ => n)
        path t
  | .backpropAt path r, t => backprop r path t

/-- Run a sequence of tree operations on a tree, first operation
first. -/
def applyOps (ops : List TreeOp) (t : Node) : Node :=
  ops.foldl (fun t' op => applyOp op t') t

/-- The cached-mean invariant of one statistics triple: `q_value` is 0
on an unvisited node and `w_value / visit_num` otherwise. -/
def statOK (v : ℕ) (w q : ℚ) : Prop :=
  if v = 0 then q = 0 else q = w / (v : ℚ)

/-- Every node of a tree satisfies the cached-mean invariant. -/
inductive AllInv : Node → Prop where
  | mk {pa : Bool} {v : ℕ} {w q pr : ℚ} {c : List (ℤ × Node)} :
      statOK v w q → (∀ k n, (k, n) ∈ c → AllInv n) →
      AllInv (.mk pa v w q pr c)

/-- `MCTSMetaPlayer._update_current_node(last_move)` of
src/agent/mcts_agent.py, acting on the root it replaces: the sentinel
`-1` installs a fresh root; a move whose child exists promotes that
child (clearing its parent reference); any other move installs a fresh
root. -/
def updateCurrentNode (last_move : ℤ) (root : Node) : Node :=
  if last_move = -1 then Node.new false
  else
    match lookupKey last_move root.children with
    | some c => c.clearParent
    | none => Node.new false

/-- The sort key `(sub_node[1].visit_num, sub_node[1].q_value)` used by
`select_action`. -/
def subNodeKey (p : ℤ × Node) : ℕ × ℚ :=
  (p.2.visit_num, p.2.q_value)

/-- Lexicographic order on the sort keys, as Python compares tuples. -/
def keyLe (a b : ℕ × ℚ) : Prop :=
  a.1 < b.1 ∨ (a.1 = b.1 ∧ a.2 ≤ b.2)

instance keyLe.decRel : DecidableRel keyLe := fun a b => by
  unfold keyLe; infer_instance

/-- The comparison `sorted` runs on two children of the root. -/
def nodeLe (p q : ℤ × Node) : Prop :=
  keyLe (subNodeKey p) (subNodeKey q)

instance nodeLe.decRel : DecidableRel nodeLe := fun p q => by
  unfold nodeLe; infer_instance

instance nodeLe.total : IsTotal (ℤ × Node) nodeLe := by
  constructor
  intro a b
  unfold nodeLe keyLe
  rcases lt_trichotomy (subNodeKey a).1 (subNodeKey b).1 with h | h | h
  · exact Or.inl (Or.inl h)
  · rcases le_total (subNodeKey a).2 (subNodeKey b).2 with h2 | h2
    · exact Or.inl (Or.inr ⟨h, h2⟩)
    · exact Or.inr (Or.inr ⟨h.symm, h2⟩)
  · exact Or.inr (Or.inl h)

instance nodeLe.trans : IsTrans (ℤ × Node) nodeLe := by
  constructor
  intro a b c hab hbc
  unfold nodeLe keyLe at *
  rcases hab with h1 | ⟨h1, h1'⟩
  · rcases hbc with h2 | ⟨h2, _⟩
    · exact Or.inl (h1.trans h2)
    · exact Or.inl (h2 ▸ h1)
  · rcases hbc with h2 | ⟨h2, h2'⟩
    · exact Or.inl (h1 ▸ h2)
    · exact Or.inr ⟨h1.trans h2, h1'.trans h2'⟩

/-- The top-level choice of `MCTSMetaPlayer.select_action` once the
simulation budget is spent: raise `ValueError` (here `none`) when the
root has no children, otherwise sort the children by
`(visit_num, q_value)` ascending (stably, as Python's `sorted`) and
return the action of the last entry. -/
def select_action_top (children : List (ℤ × Node)) : Option ℤ :=
  match children with
  | [] => none
  | _ :: _ =>
    match (List.insertionSort nodeLe children).getLast? with
    | some p => some p.1
    | none => none

/-- The state of an `MCTSMetaPlayer` (src/agent/mcts_agent.py) over an
opaque environment type `E`. -/
structure MCTSMetaPlayer (E : Type) : Type where
  player : Option ℤ
  c : ℚ
  root : Node
  env : E
  train_episode : ℕ
  last_move : ℤ
  train_mode : Bool

/-- `MCTSMetaPlayer.__init__(env, c, train_episode)`: stores the
exploration constant and simulation budget as given, a fresh root, a
deep copy of the environment, the sentinel last move and training mode;
the body contains no validation and no raise, so construction always
succeeds. -/
def MCTSMetaPlayer.init {E : Type} (env : E) (c : ℚ := 5)
    (train_episode : ℕ := 1500) : Except PyError (MCTSMetaPlayer E) :=
  .ok
    { player := none
      c := c
      root := Node.new false
      env := env
      train_episode := train_episode
      last_move := -1
      train_mode := true }

/-- The state of a `Gomoku` environment (src/env/gomoku.py); the board
is a function from numpy indices (row, column) to cell values. -/
structure Gomoku : Type where
  board_size : ℕ
  num4win : ℕ
  board_state : ℤ → ℤ → ℤ
  current_player_id : ℤ
  available_action_space : List ℤ
  invalid_action_space : List ℤ
  last_move : ℤ

/-- `Gomoku._int_to_coordinate(action)`: `[action // board_size,
action % board_size]` with Python floor division. -/
def intToCoordinate (board_size : ℕ) (action : ℤ) : ℤ × ℤ :=
  (action.fdiv (board_size : ℤ), action.fmod (board_size : ℤ))

/-- Write one cell of the board. -/
def boardSet (b : ℤ → ℤ → ℤ) (x y v : ℤ) : ℤ → ℤ → ℤ :=
  fun i j => if i = x ∧ j = y then v else b i j

/-- `range(a, b)` over Python integers. -/
def intRange (a b : ℤ) : List ℤ :=
  (List.range (b - a).toNat).map fun i => (a + (i : ℤ))

/-- The scanning loop of `Gomoku._is_terminal`: walk the listed cell
values keeping a run counter that resets on a mismatch, and report
whether it ever reaches `num4win`. -/
def triggerScan (player_id : ℤ) (num4win : ℕ) : List ℤ → ℕ → Bool
  | [], _ => false
  | v :: rest, trigger =>
      let trigger' := if v = player_id then trigger + 1 else 0
      if trigger' = num4win then true else triggerScan player_id num4win rest trigger'

/-- `Gomoku._is_terminal()`: check the four directions through the last
move (note the Python code unpacks `_int_to_coordinate` as `y, x`), then
declare a tie when the available action space is empty, else continue
the game. -/
def Gomoku.isTerminal (g : Gomoku) : Bool × ℤ :=
  let board_size : ℤ := (g.board_size : ℤ)
  let num4win := g.num4win
  let player_id := g.current_player_id
  let yx := intToCoordinate g.board_size g.last_move
  let y := yx.1
  let x := yx.2
  let vertical := triggerScan player_id num4win
    ((intRange (max 0 (y - (num4win : ℤ) + 1)) (min (y + (num4win : ℤ)) board_size)).map
      fun i => g.board_state i x) 0
  if vertical then (true, player_id)
  else
    let horizontal := triggerScan player_id num4win
      ((intRange (max 0 (x - (num4win : ℤ) + 1)) (min (x + (num4win : ℤ)) board_size)).map
        fun i => g.board_state y i) 0
    if horizontal then (true, player_id)
    else
      let bm1 := min (min x y) ((num4win : ℤ) - 1)
      let em1 := min (min (board_size - x - 1) (board_size - y - 1)) ((num4win : ℤ) - 1)
      let obliqueRange1 := bm1 + em1 + 1
      let diag1 :=
        if (num4win : ℤ) ≤ obliqueRange1 then
          triggerScan player_id num4win
            ((intRange 0 obliqueRange1).map
              fun i => g.board_state (y - bm1 + i) (x - bm1 + i)) 0
        else false
      if diag1 then (true, player_id)
      else
        let bm2 := min (min x (board_size - y - 1)) ((num4win : ℤ) - 1)
        let em2 := min (min (board_size - x - 1) y) ((num4win : ℤ) - 1)
        let obliqueRange2 := bm2 + em2 + 1
        let diag2 :=
          if (num4win : ℤ) ≤ obliqueRange2 then
            triggerScan player_id num4win
              ((intRange 0 obliqueRange2).map
                fun i => g.board_state (y + bm2 - i) (x - bm2 + i)) 0
          else false
        if diag2 then (true, player_id)
        else if g.available_action_space.length = 0 then (true, 0)
        else (false, 0)

/-- The dict `Gomoku.step` returns: the early guard returns only the
`"terminal"` and `"reward"` entries, every other path returns the five
entries `"state"`, `"action"`, `"reward"`, `"terminal"`,
`"last_move"`. -/
inductive StepResult : Type where
  | terminalOnly (terminal : Bool) (reward : ℤ)
  | normal (state : ℤ → ℤ → ℤ) (action : List ℤ) (reward : ℤ)
      (terminal : Bool) (last_move : ℤ)

/-- `Gomoku.step(action)` of src/env/gomoku.py: on an empty available
action space, immediately return `{"terminal": True, "reward": 0}` with
the environment untouched; otherwise substitute a random available
action for an invalid one, write the mover's id on the board, record the
last move, evaluate `_is_terminal`, move the action from the available
to the invalid space, switch the player and return the full state
dict.  `rnd` stands for `np.random.choice`. -/
def Gomoku.step (g : Gomoku) (rnd : List ℤ → ℤ) (action : ℤ) :
    Gomoku × StepResult :=
  if g.available_action_space = [] then (g, .terminalOnly true 0)
  else
    let action :=
      if g.available_action_space.contains action then action
      else rnd g.available_action_space
    let xy := intToCoordinate g.board_size action
    let g1 := { g with
      board_state := boardSet g.board_state xy.1 xy.2 g.current_player_id
      last_move := action }
    let tr := g1.isTerminal
    let g2 := { g1 with
      invalid_action_space := g1.invalid_action_space ++ [action]
      available_action_space := g1.available_action_space.erase action
      current_player_id := if g1.current_player_id = -1 then 1 else -1 }
    (g2, .normal g2.board_state g2.available_action_space tr.2 tr.1 g2.last_move)

/-- An environment that never terminates: every step reports a
non-terminal state with one available action and reward 1. -/
def neverEndingStep : Unit → ℤ → Unit × PState :=
  fun _ _ => ((), { terminal := false, action := [0], reward := 1 })

/-- A choice function standing for `np.random.choice`: the head of the
action list. -/
def headChoice : List ℤ → ℤ :=
  fun l => l.headD 0

/-- A non-terminal state with one available action and reward 1. -/
def openState : PState :=
  { terminal := false, action := [0], reward := 1 }

/-- A 3-by-3 Gomoku position whose available action space is empty. -/
def gomokuNoActions : Gomoku :=
  { board_size := 3
    num4win := 3
    board_state := fun _ _ => 1
    current_player_id := -1
    available_action_space := []
    invalid_action_space := [0, 1, 2, 3, 4, 5, 6, 7, 8]
    last_move := 8 }

/-- A fresh 3-by-3 Gomoku position with the full action space. -/
def gomokuFresh : Gomoku :=
  { board_size := 3
    num4win := 3
    board_state := fun _ _ => 0
    current_player_id := -1
    available_action_space := [0, 1, 2, 3, 4, 5, 6, 7, 8]
    invalid_action_space := []
    last_move := -1 }

section Theorems

/-- C7 counterexample: expanding an action that is already a key of
`children` does not fail with any exception; it succeeds and silently
replaces the existing child (here a child with 7 visits) by a fresh
node. -/
theorem expand_duplicate_counterexample :
    (Node.mk false 0 0 0 1 [(3, Node.mk true 7 2 (2 / 7) 1 [])]).expand
        (.npInt 3) =
      .ok (Node.mk false 0 0 0 1 [(3, Node.new true)]) :=
  rfl

/-- Looking up the key just inserted finds the inserted node. -/
theorem lookupKey_dictInsert_self (a : ℤ) (v : Node) :
    ∀ l : List (ℤ × Node), lookupKey a (dictInsert a v l) = some v := by
  intro l
  induction l with
  | nil => simp [dictInsert, lookupKey]
  | cons hd tl ih =>
      by_cases h : hd.1 = a
      · simp [dictInsert, lookupKey, h]
      · simpa [dictInsert, lookupKey, h] using ih

/-- Insertion leaves every other key's binding unchanged. -/
theorem lookupKey_dictInsert_other (a b : ℤ) (v : Node) (hba : b ≠ a) :
    ∀ l : List (ℤ × Node), lookupKey b (dictInsert a v l) = lookupKey b l := by
  intro l
  have hab : a ≠ b := Ne.symm hba
  induction l with
  | nil => simp [dictInsert, lookupKey, hab]
  | cons hd tl ih =>
      obtain ⟨k, v'⟩ := hd
      by_cases h : k = a
      · subst h
        simp [dictInsert, lookupKey, hab]
      · simp [dictInsert, lookupKey, h, ih]

/-- Insertion grows the dict by one entry for a new key and keeps its
size for an existing key. -/
theorem length_dictInsert (a : ℤ) (v : Node) :
    ∀ l : List (ℤ × Node),
      (dictInsert a v l).length =
        if (lookupKey a l).isSome then l.length else l.length + 1 := by
  intro l
  induction l with
  | nil => simp [dictInsert, lookupKey]
  | cons hd tl ih =>
      by_cases h : hd.1 = a
      · simp [dictInsert, lookupKey, h]
      · simp only [dictInsert, lookupKey, h, if_false, List.length_cons, ih]
        by_cases h2 : (lookupKey a tl).isSome <;> simp [h2]

/-- C7 (amended): dynamic expansion on a numpy integer action always
succeeds: the returned node keeps every statistic of the receiver, binds
the action to one fresh child, leaves every other binding unchanged, and
grows the children dict by one entry exactly when the action was not
already a key — an existing key is silently rebound to the fresh child
rather than rejected. -/
theorem expand_dynamic_amended (t : Node) (a : ℤ) :
    ∃ t', t.expand (.npInt a) = .ok t' ∧
      t'.parent = t.parent ∧
      t'.visit_num = t.visit_num ∧
      t'.w_value = t.w_value ∧
      t'.q_value = t.q_value ∧
      lookupKey a t'.children = some (Node.new true) ∧
      (∀ b, b ≠ a → lookupKey b t'.children = lookupKey b t.children) ∧
      t'.children.length =
        (if (lookupKey a t.children).isSome then t.children.length
         else t.children.length + 1) := by
  cases t with
  | mk pa v w q pr c =>
      refine ⟨_, rfl, rfl, rfl, rfl, rfl, ?_, ?_, ?_⟩
      · exact lookupKey_dictInsert_self a (Node.new true) c
      · intro b hb
        exact lookupKey_dictInsert_other a b (Node.new true) hb c
      · exact length_dictInsert a (Node.new true) c

/-- C8 counterexample: constructing the engine with a negative
exploration constant and a zero simulation budget does not fail; the
constructor returns the engine with those values stored. -/
theorem init_malformed_counterexample :
    MCTSMetaPlayer.init () (-1) 0 =
      .ok
        { player := none
          c := -1
          root := Node.new false
          env := ()
          train_episode := 0
          last_move := -1
          train_mode := true } :=
  rfl

/-- C8 (amended): the constructor performs no configuration validation:
for every exploration constant (non-positive included) and every
simulation budget (zero included) it succeeds, storing both unchanged
next to a fresh root, the sentinel last move and training mode. -/
theorem init_never_fails {E : Type} (env : E) (c : ℚ) (train_episode : ℕ) :
    ∃ pl : MCTSMetaPlayer E,
      MCTSMetaPlayer.init env c train_episode = .ok pl ∧
      pl.c = c ∧ pl.train_episode = train_episode ∧
      pl.root = Node.new false ∧ pl.last_move = -1 ∧
      pl.train_mode = true ∧ pl.player = none :=
  ⟨_, rfl, rfl, rfl, rfl, rfl, rfl, rfl⟩

/-- C9: dynamic expansion (the default mode) raises `TypeError` on
every builtin Python `int` action, returning no tree (so no child is
added), while the same action value as a numpy integer is accepted. -/
theorem expand_pyint_typeerror (t : Node) (n : ℤ) :
    t.expand (.pyInt n) = .error .typeError ∧
      ∃ t', t.expand (.npInt n) = .ok t' :=
  ⟨rfl, _, rfl⟩

/-- The playout loop does not consult its running count: starting it at
`c` shifts the final count by `c`. -/
theorem playOutAux_shift {E : Type} (envStep : E → ℤ → E × PState)
    (choose : List ℤ → ℤ) :
    ∀ (n : ℕ) (e : E) (s : PState) (c : ℕ),
      playOutAux envStep choose n e s c =
        ((playOutAux envStep choose n e s 0).1 + c,
          (playOutAux envStep choose n e s 0).2) := by
  intro n
  induction n with
  | zero => intro e s c; simp [playOutAux]
  | succ n ih =>
      intro e s c
      by_cases ht : s.terminal
      · simp [playOutAux, ht]
      · by_cases ha : s.action = []
        · simp [playOutAux, ht, ha]
        · simp only [playOutAux, ht, ha, if_false, Bool.false_eq_true]
          rw [ih _ _ (c + 1), ih _ _ (0 + 1)]
          dsimp only
          exact Prod.ext (by omega) rfl

/-- C1 counterexample: against an environment that never terminates and
always reports reward 1, a playout with `limit = 5` applies exactly 5
actions but returns `-1`, not the `(-1) ^ (5 + 1) * 1 = 1` the claim
asserts: `count` starts at 1, so the code's `(-1) ** (count + 1)` is
`(-1) ^ (movesPlayed + 2)`, opposite in sign to
`(-1) ^ (movesPlayed + 1)` whenever the reward is nonzero. -/
theorem play_out_sign_counterexample :
    Node.play_out neverEndingStep headChoice () openState 5 = -1 ∧
    rolloutMovesPlayed neverEndingStep headChoice 5 () openState = 5 ∧
    (rolloutFinalState neverEndingStep headChoice 5 () openState).reward = 1 ∧
    (-1 : ℤ) ^ (5 + 1) * 1 = 1 ∧ (-1 : ℤ) ≠ 1 := by
  refine ⟨?_, ?_, ?_, ?_, ?_⟩ <;> decide

/-- C1 (amended): a playout that stops after `movesPlayed` applied
actions returns `(-1) ^ movesPlayed` times the reward of the state it
stops in (the code computes `(-1) ^ (count + 1)` with `count` starting
at 1, i.e. `count = movesPlayed + 1`); in particular, against an
environment that never terminates and never empties the action list, a
playout with `limit = 5` applies exactly 5 actions and returns the
negated reward of the state it stops in. -/
theorem play_out_sign_amended {E : Type} (envStep : E → ℤ → E × PState)
    (choose : List ℤ → ℤ) (e : E) (s : PState) :
    (∀ limit : ℕ,
      Node.play_out envStep choose e s limit =
        (-1 : ℤ) ^ rolloutMovesPlayed envStep choose limit e s *
          (rolloutFinalState envStep choose limit e s).reward) ∧
    ((∀ (e' : E) (a : ℤ), (envStep e' a).2.terminal = false) →
      (∀ (e' : E) (a : ℤ), (envStep e' a).2.action ≠ []) →
      s.terminal = false → s.action ≠ [] →
      rolloutMovesPlayed envStep choose 5 e s = 5 ∧
        Node.play_out envStep choose e s 5 =
          -(rolloutFinalState envStep choose 5 e s).reward) := by
  have hcount : ∀ limit : ℕ,
      playOutAux envStep choose limit e s 1 =
        (rolloutMovesPlayed envStep choose limit e s + 1,
          rolloutFinalState envStep choose limit e s) := by
    intro limit
    rw [rolloutMovesPlayed, rolloutFinalState, rolloutRun]
    exact playOutAux_shift envStep choose limit e s 1
  have hsign : ∀ limit : ℕ,
      Node.play_out envStep choose e s limit =
        (-1 : ℤ) ^ rolloutMovesPlayed envStep choose limit e s *
          (rolloutFinalState envStep choose limit e s).reward := by
    intro limit
    rw [Node.play_out, hcount limit]
    have : (-1 : ℤ) ^ (rolloutMovesPlayed envStep choose limit e s + 1 + 1) =
        (-1 : ℤ) ^ rolloutMovesPlayed envStep choose limit e s := by
      rw [pow_succ, pow_succ]
      ring
    rw [this]
  refine ⟨hsign, fun hterm hact hs hsa => ?_⟩
  have hfull : ∀ (n : ℕ) (e' : E) (s' : PState) (c : ℕ),
      s'.terminal = false → s'.action ≠ [] →
      (playOutAux envStep choose n e' s' c).1 = c + n := by
    intro n
    induction n with
    | zero => intro e' s' c _ _; simp [playOutAux]
    | succ n ih =>
        intro e' s' c hs' hsa'
        simp only [playOutAux, hs', Bool.false_eq_true, if_false, hsa']
        rw [ih _ _ _ (hterm e' (choose s'.action)) (hact e' (choose s'.action))]
        omega
  have hmoves : rolloutMovesPlayed envStep choose 5 e s = 5 := by
    rw [rolloutMovesPlayed, rolloutRun]
    exact hfull 5 e s 0 hs hsa
  refine ⟨hmoves, ?_⟩
  rw [hsign 5, hmoves]
  ring

/-- C1 witness: the amended playout theorem instantiated on the
never-terminating environment with reward 1. -/
theorem play_out_sign_amended_witness :
    Node.play_out neverEndingStep headChoice () openState 3 =
      (-1 : ℤ) ^ rolloutMovesPlayed neverEndingStep headChoice 3 () openState *
        (rolloutFinalState neverEndingStep headChoice 3 () openState).reward ∧
    rolloutMovesPlayed neverEndingStep headChoice 5 () openState = 5 ∧
    Node.play_out neverEndingStep headChoice () openState 5 =
      -(rolloutFinalState neverEndingStep headChoice 5 () openState).reward := by
  have h := play_out_sign_amended neverEndingStep headChoice () openState
  have h2 := h.2 (fun _ _ => rfl) (fun _ _ => List.cons_ne_nil 0 []) rfl
    (List.cons_ne_nil 0 [])
  exact ⟨h.1 3, h2.1, h2.2⟩

/-- C3: backpropagating `r` on a node with ancestor chain `chain`
(head the node itself, tail its parents up to the root) touches exactly
the nodes of the chain, and the node `k` levels up receives the update
with reward `(-1) ^ k * r`: visit count incremented by 1, total value
increased by that reward, mean value set to the new quotient. -/
theorem update_chain_spec (chain : List Stats) (r : ℚ) (k : ℕ)
    (hk : k < chain.length) :
    (updateChain chain r).length = chain.length ∧
      (updateChain chain r)[k]? = some (statUpd chain[k] ((-1 : ℚ) ^ k * r)) := by
  constructor
  · clear hk
    induction chain generalizing r with
    | nil => rfl
    | cons s rest ih => simpa [updateChain] using ih (-r)
  · induction chain generalizing r k with
    | nil => exact absurd hk (by simp)
    | cons s rest ih =>
        cases k with
        | zero => simp [updateChain]
        | succ k =>
            have hk' : k < rest.length := by simpa using hk
            have h := ih (-r) k hk'
            have hsign : (-1 : ℚ) ^ k * -r = (-1 : ℚ) ^ (k + 1) * r := by ring
            simp only [updateChain, List.getElem?_cons_succ, List.getElem_cons_succ, h,
              hsign]

/-- C3 witness: the backpropagation theorem at a chain of length three,
reward 1 and the grandparent level `k = 2`, which receives `+1`. -/
theorem update_chain_spec_witness :
    (updateChain [⟨0, 0, 0⟩, ⟨1, 1, 1⟩, ⟨2, 4, 2⟩] 1).length = 3 ∧
      (updateChain [⟨0, 0, 0⟩, ⟨1, 1, 1⟩, ⟨2, 4, 2⟩] (1 : ℚ))[2]? =
        some (statUpd ⟨2, 4, 2⟩ ((-1 : ℚ) ^ 2 * 1)) :=
  update_chain_spec [⟨0, 0, 0⟩, ⟨1, 1, 1⟩, ⟨2, 4, 2⟩] 1 2 (by decide)

/-- C2 counterexample: `get_ucb` on a node whose parent has zero visits
evaluates `np.sqrt(2 * np.log(0) / 1) = np.sqrt(-inf)`, which is NaN,
not the positive infinity the claim asserts; the whole score is then
NaN as well. -/
theorem get_ucb_zero_parent_counterexample :
    explorationScore 0 0 = FVal.nan ∧
      Node.get_ucb 0 0 0 5 = FVal.nan ∧
      FVal.nan ≠ FVal.pinf := by
  have hlog : npLog 0 = FVal.ninf := by simp [npLog]
  have hmul : mulF (.fin 2) FVal.ninf = FVal.ninf := by
    have h2 : (0 : ℝ) < 2 := by norm_num
    simp [mulF, h2]
  have hdiv : divF FVal.ninf (.fin ((0 : ℕ) + 1)) = FVal.ninf := by
    have : ¬((((0 : ℕ) : ℝ) + 1) < 0) := by norm_num
    simp [divF, this]
  have hexp : explorationScore 0 0 = FVal.nan := by
    rw [explorationScore, hlog, hmul]
    rw [show ((.fin ((0 : ℕ) + 1) : FVal)) = (.fin (((0 : ℕ) : ℝ) + 1)) by norm_num] at hdiv
    rw [show ((0 : ℕ) + 1 : ℝ) = (((0 : ℕ) : ℝ) + 1) by norm_num]
    rw [hdiv]
    rfl
  refine ⟨hexp, ?_, by intro h; cases h⟩
  rw [Node.get_ucb]
  have hexp' :
      sqrtF (divF (mulF (.fin 2) (npLog 0)) (.fin ((0 : ℕ) + 1))) = FVal.nan := hexp
  rw [hexp']
  have hmul5 : mulF (.fin (5 : ℝ)) FVal.nan = FVal.nan := rfl
  rw [hmul5]
  have haddnan : ∀ v : FVal, addF v FVal.nan = FVal.nan := by
    intro v
    cases v <;> rfl
  exact haddnan _

/-- C2 (amended): for a node whose parent has been visited at least
once, the UCB score is exactly
`meanValue / (visitCount + 1) + C * sqrt(2 * ln(parentVisitCount) / (visitCount + 1))`;
when the parent's visit count is zero the exploration term is NaN
(numpy's `sqrt` of `2 * log(0) / (visitCount + 1) = -inf`), not positive
infinity. -/
theorem get_ucb_amended (q : ℝ) (v : ℕ) (p : ℕ) (c : ℝ) (hp : 1 ≤ p) :
    Node.get_ucb q v p c =
      .fin (q / ((v : ℝ) + 1) +
        c * Real.sqrt (2 * Real.log (p : ℝ) / ((v : ℝ) + 1))) ∧
    explorationScore 0 v = FVal.nan := by
  have hv : ((v : ℝ) + 1) ≠ 0 := by positivity
  have hp0 : p ≠ 0 := by omega
  have hlog : npLog p = .fin (Real.log (p : ℝ)) := by simp [npLog, hp0]
  have hp1 : (1 : ℝ) ≤ (p : ℝ) := by exact_mod_cast hp
  have hlognn : 0 ≤ Real.log (p : ℝ) := Real.log_nonneg hp1
  have hxnn : ¬(2 * Real.log (p : ℝ) / ((v : ℝ) + 1) < 0) := by
    push_neg
    positivity
  constructor
  · simp [Node.get_ucb, hlog, mulF, divF, sqrtF, addF, hv, hxnn]
  · have hlog0 : npLog 0 = FVal.ninf := by simp [npLog]
    have hmul : mulF (.fin 2) FVal.ninf = FVal.ninf := by
      have h2 : (0 : ℝ) < 2 := by norm_num
      simp [mulF, h2]
    have hvnonneg : ¬(((v : ℝ) + 1) < 0) := by
      push_neg
      positivity
    rw [explorationScore, hlog0, hmul]
    simp [divF, sqrtF, hvnonneg]

/-- C2 witness: the amended UCB theorem at a parent with one visit and
an unvisited child. -/
theorem get_ucb_amended_witness :
    Node.get_ucb 1 0 1 5 =
      .fin ((1 : ℝ) / (((0 : ℕ) : ℝ) + 1) +
        5 * Real.sqrt (2 * Real.log ((1 : ℕ) : ℝ) / (((0 : ℕ) : ℝ) + 1))) ∧
    explorationScore 0 0 = FVal.nan :=
  get_ucb_amended 1 0 1 5 (by decide)

/-- C6: re-rooting on a real move `m` (not the `-1` sentinel) promotes
the child keyed `m` when it exists — its visit count, total value, mean
value, prior and entire subtree unchanged, its parent reference cleared
— so that only that child's subtree stays reachable from the root;
when no child is keyed `m`, a fresh empty root replaces the tree. -/
theorem update_current_node_spec (m : ℤ) (root : Node) (hm : m ≠ -1) :
    (∀ c, lookupKey m root.children = some c →
      updateCurrentNode m root =
        Node.mk false c.visit_num c.w_value c.q_value c.prob c.children) ∧
    (lookupKey m root.children = none →
      updateCurrentNode m root = Node.new false) := by
  constructor
  · intro c hc
    rw [updateCurrentNode, if_neg hm, hc]
    cases c
    rfl
  · intro hc
    rw [updateCurrentNode, if_neg hm, hc]

/-- C6 witness: re-rooting on move 3 of a root with a visited child
keyed 3 yields exactly that child with its parent reference cleared. -/
theorem update_current_node_spec_witness :
    updateCurrentNode 3
        (Node.mk false 9 1 (1 / 9) 1
          [(2, Node.mk true 4 0 0 1 []),
            (3, Node.mk true 5 2 (2 / 5) 1 [(7, Node.mk true 1 1 1 1 [])])]) =
      Node.mk false 5 2 (2 / 5) 1 [(7, Node.mk true 1 1 1 1 [])] :=
  (update_current_node_spec 3
    (Node.mk false 9 1 (1 / 9) 1
      [(2, Node.mk true 4 0 0 1 []),
        (3, Node.mk true 5 2 (2 / 5) 1 [(7, Node.mk true 1 1 1 1 [])])])
    (by decide)).1
    (Node.mk true 5 2 (2 / 5) 1 [(7, Node.mk true 1 1 1 1 [])]) rfl

/-- C10: `Gomoku.step` on a position whose available action space is
empty returns, for every action, the two-entry dict
`{"terminal": True, "reward": 0}` and leaves the environment — board,
action spaces, current player — untouched; on a non-empty action space
it always returns the five-entry dict carrying `"state"`, `"action"`,
`"reward"`, `"terminal"` and `"last_move"`. -/
theorem gomoku_step_empty_spec (g : Gomoku) (rnd : List ℤ → ℤ) (a : ℤ) :
    (g.available_action_space = [] →
      g.step rnd a = (g, .terminalOnly true 0)) ∧
    (g.available_action_space ≠ [] →
      ∃ st ac rw tm lm g', g.step rnd a = (g', .normal st ac rw tm lm)) := by
  constructor
  · intro h
    rw [Gomoku.step, if_pos h]
  · intro h
    rw [Gomoku.step, if_neg h]
    exact ⟨_, _, _, _, _, _, rfl⟩

/-- C10 witness: the empty-space branch on a full 3-by-3 board and the
five-entry branch on a fresh 3-by-3 board. -/
theorem gomoku_step_empty_spec_witness :
    gomokuNoActions.step headChoice 4 = (gomokuNoActions, .terminalOnly true 0) ∧
    (∃ st ac rw tm lm g',
      gomokuFresh.step headChoice 4 = (g', .normal st ac rw tm lm)) :=
  ⟨(gomoku_step_empty_spec gomokuNoActions headChoice 4).1 rfl,
    (gomoku_step_empty_spec gomokuFresh headChoice 4).2 (by decide)⟩

/-- The comparison `sorted` uses is reflexive. -/
theorem nodeLe_refl (x : ℤ × Node) : nodeLe x x :=
  Or.inr ⟨rfl, le_refl _⟩

/-- In a list sorted by `nodeLe`, the last element dominates every
element. -/
theorem sorted_getLast_max :
    ∀ L : List (ℤ × Node), L.Sorted nodeLe →
      ∀ p, L.getLast? = some p → ∀ x ∈ L, nodeLe x p := by
  intro L
  induction L with
  | nil =>
      intro _ p hp
      simp at hp
  | cons hd tl ih =>
      intro hs p hp x hx
      cases tl with
      | nil =>
          simp at hp hx
          subst hp
          subst hx
          exact nodeLe_refl _
      | cons b t =>
          rw [List.getLast?_cons_cons] at hp
          obtain ⟨hhd, htl⟩ := List.sorted_cons.mp hs
          rcases List.mem_cons.mp hx with hxa | hxtl
          · subst hxa
            exact hhd p (List.mem_of_getLast?_eq_some hp)
          · exact ih htl p hp x hxtl

/-- C5: the top-level choice after the simulation budget is spent fails
(`ValueError`, the spec's `EmptyTree`) exactly when the root has no
children; otherwise it returns the action of a child whose pair
`(visit_num, q_value)` is lexicographically maximal — highest visit
count first, ties broken by mean value. -/
theorem select_action_top_spec (children : List (ℤ × Node)) :
    (children = [] → select_action_top children = none) ∧
    (children ≠ [] →
      ∃ a c, select_action_top children = some a ∧ (a, c) ∈ children ∧
        ∀ b d, (b, d) ∈ children →
          keyLe (d.visit_num, d.q_value) (c.visit_num, c.q_value)) := by
  constructor
  · intro h
    subst h
    rfl
  · intro h
    obtain ⟨hd, tl, rfl⟩ := List.exists_cons_of_ne_nil h
    have hL : (List.insertionSort nodeLe (hd :: tl)) ≠ [] := by
      intro hnil
      have := List.length_insertionSort nodeLe (hd :: tl)
      rw [hnil] at this
      simp at this
    cases hlast : (List.insertionSort nodeLe (hd :: tl)).getLast? with
    | none => exact absurd (List.getLast?_eq_none_iff.mp hlast) hL
    | some p =>
        refine ⟨p.1, p.2, ?_, ?_, ?_⟩
        · rw [select_action_top, hlast]
        · have hpmem : p ∈ List.insertionSort nodeLe (hd :: tl) :=
            List.mem_of_getLast?_eq_some hlast
          have := (List.perm_insertionSort nodeLe (hd :: tl)).mem_iff.mp hpmem
          simpa using this
        · intro b d hbd
          have hmem : (b, d) ∈ List.insertionSort nodeLe (hd :: tl) :=
            (List.perm_insertionSort nodeLe (hd :: tl)).mem_iff.mpr hbd
          have := sorted_getLast_max (List.insertionSort nodeLe (hd :: tl))
            (List.sorted_insertionSort nodeLe (hd :: tl)) p hlast (b, d) hmem
          exact this

/-- C5 witness: on a root with two children the selection returns an
action whose child's `(visit_num, q_value)` pair dominates both, and on
an empty root it reports the failure. -/
theorem select_action_top_spec_witness :
    select_action_top [] = none ∧
    (∃ a c,
      select_action_top
          ([(4, Node.mk true 2 1 (1 / 2) 1 []), (7, Node.mk true 3 1 (1 / 3) 1 [])] :
            List (ℤ × Node)) =
        some a ∧
      (a, c) ∈
        ([(4, Node.mk true 2 1 (1 / 2) 1 []), (7, Node.mk true 3 1 (1 / 3) 1 [])] :
          List (ℤ × Node)) ∧
      ∀ b d,
        (b, d) ∈
          ([(4, Node.mk true 2 1 (1 / 2) 1 []), (7, Node.mk true 3 1 (1 / 3) 1 [])] :
            List (ℤ × Node)) →
        keyLe (d.visit_num, d.q_value) (c.visit_num, c.q_value)) :=
  ⟨(select_action_top_spec []).1 rfl,
    (select_action_top_spec
      [(4, Node.mk true 2 1 (1 / 2) 1 []), (7, Node.mk true 3 1 (1 / 3) 1 [])]).2
      (by simp)⟩

/-- The three assignment lines of `update` restore the cached-mean
invariant on the node they touch. -/
theorem statOK_upd (v : ℕ) (w s : ℚ) :
    statOK (v + 1) (w + s) ((w + s) / ((v : ℚ) + 1)) := by
  unfold statOK
  rw [if_neg (Nat.succ_ne_zero v)]
  push_cast
  ring_nf

/-- A fresh node satisfies the cached-mean invariant everywhere. -/
theorem allInv_new (b : Bool) : AllInv (Node.new b) :=
  AllInv.mk (by simp [statOK]) (by simp)

/-- A member of a dict after insertion is the inserted node or an
original member. -/
theorem mem_dictInsert (k : ℤ) (v : Node) :
    ∀ (l : List (ℤ × Node)) (k' : ℤ) (n : Node),
      (k', n) ∈ dictInsert k v l → n = v ∨ (k', n) ∈ l := by
  intro l
  induction l with
  | nil =>
      intro k' n h
      simp [dictInsert] at h
      exact Or.inl h.2
  | cons hd tl ih =>
      intro k' n h
      by_cases hk : hd.1 = k
      · rw [dictInsert, if_pos hk] at h
        rcases List.mem_cons.mp h with h1 | h1
        · exact Or.inl (congrArg Prod.snd h1)
        · exact Or.inr (List.mem_cons_of_mem hd h1)
      · rw [dictInsert, if_neg hk] at h
        rcases List.mem_cons.mp h with h1 | h1
        · exact Or.inr (h1 ▸ List.mem_cons_self hd tl)
        · rcases ih k' n h1 with h2 | h2
          · exact Or.inl h2
          · exact Or.inr (List.mem_cons_of_mem hd h2)

/-- Backpropagation preserves the cached-mean invariant on every node
of the tree. -/
theorem backprop_inv (r : ℚ) :
    ∀ (p : List ℤ) (t : Node), AllInv t → AllInv (backprop r p t) := by
  intro p
  induction p with
  | nil =>
      intro t h
      cases t with
      | mk pa v w q pr c =>
          cases h with
          | mk hs hc =>
              rw [backprop]
              exact AllInv.mk (statOK_upd v w r) hc
  | cons a tl ih =>
      intro t h
      cases t with
      | mk pa v w q pr c =>
          cases h with
          | mk hs hc =>
              rw [backprop]
              refine AllInv.mk (statOK_upd v w _) ?_
              intro k n hkn
              simp only [List.mem_map] at hkn
              obtain ⟨kc, hkc, heq⟩ := hkn
              by_cases hka : kc.1 = a
              · rw [if_pos hka] at heq
                have hn : n = backprop r tl kc.2 := (congrArg Prod.snd heq).symm
                rw [hn]
                exact ih kc.2 (hc kc.1 kc.2 (by simpa using hkc))
              · rw [if_neg hka] at heq
                have hn : n = kc.2 := (congrArg Prod.snd heq).symm
                have hk : kc.1 = k := congrArg Prod.fst heq
                rw [hn]
                exact hc kc.1 kc.2 (by simpa using hkc)

/-- Applying an invariant-preserving function at a path preserves the
invariant on every node of the tree. -/
theorem modifyAt_inv (f : Node → Node) (hf : ∀ t, AllInv t → AllInv (f t)) :
    ∀ (p : List ℤ) (t : Node), AllInv t → AllInv (modifyAt f p t) := by
  intro p
  induction p with
  | nil =>
      intro t h
      rw [modifyAt]
      exact hf t h
  | cons a tl ih =>
      intro t h
      cases t with
      | mk pa v w q pr c =>
          cases h with
          | mk hs hc =>
              rw [modifyAt]
              refine AllInv.mk hs ?_
              intro k n hkn
              simp only [List.mem_map] at hkn
              obtain ⟨kc, hkc, heq⟩ := hkn
              by_cases hka : kc.1 = a
              · rw [if_pos hka] at heq
                have hn : n = modifyAt f tl kc.2 := (congrArg Prod.snd heq).symm
                rw [hn]
                exact ih kc.2 (hc kc.1 kc.2 (by simpa using hkc))
              · rw [if_neg hka] at heq
                have hn : n = kc.2 := (congrArg Prod.snd heq).symm
                rw [hn]
                exact hc kc.1 kc.2 (by simpa using hkc)

/-- One dynamic expansion step preserves the cached-mean invariant. -/
theorem expand_step_inv (a : ℤ) :
    ∀ t, AllInv t →
      AllInv
        (match t.expand (.npInt a) with
          | .ok t' => t'
          | .error _ => t) := by
  intro t h
  cases t with
  | mk pa v w q pr c =>
      cases h with
      | mk hs hc =>
          show AllInv (Node.mk pa v w q pr (dictInsert a (Node.new true) c))
          refine AllInv.mk hs ?_
          intro k n hkn
          rcases mem_dictInsert a (Node.new true) c k n hkn with h1 | h1
          · rw [h1]
            exact allInv_new true
          · exact hc k n h1

/-- Every single tree operation preserves the cached-mean invariant. -/
theorem applyOp_inv (op : TreeOp) (t : Node) (h : AllInv t) :
    AllInv (applyOp op t) := by
  cases op with
  | expandAt path a => exact modifyAt_inv _ (expand_step_inv a) path t h
  | backpropAt path r => exact backprop_inv r path t h

/-- C4: after any sequence of tree operations — node creation (the
fresh root), expansions and backpropagations — every node reachable in
the resulting tree satisfies the cached-mean invariant: `q_value` is
`w_value / visit_num` whenever `visit_num > 0` and is 0 whenever
`visit_num = 0`. -/
theorem reachable_mean_invariant (ops : List TreeOp) :
    AllInv (applyOps ops (Node.new false)) := by
  have hgen : ∀ (l : List TreeOp) (t : Node), AllInv t → AllInv (applyOps l t) := by
    intro l
    induction l with
    | nil => intro t h; exact h
    | cons op rest ih =>
        intro t h
        exact ih (applyOp op t) (applyOp_inv op t h)
  exact hgen ops (Node.new false) (allInv_new false)

end Theorems

end AlphaGomoku
